import Mathlib

/-
Verification of the Runestone wire codec of this repository:
`src/rune_decode.rs` (VarIntDecoder, RunesParser) and
`src/runes_builder.rs` (encode_varint, rune_name_to_integer, RunesBuilder).

Bytes are modelled as `Nat` (each in 0..255), byte buffers as `List Nat`,
`u128` values as `Nat` (all operations stay below 2^128 on the inputs the
theorems quantify over, so no wraparound arises).  Fallible code returns
`Except String`, mirroring `Result<_, String>`.  The two parsing loops are
written with an explicit fuel argument; entry points pass the buffer length,
which is proved sufficient (each iteration advances the cursor).
-/

namespace RunesCodec

/-- Little-endian value of a byte list, as `uN::from_le_bytes` computes it:
the head is the least significant byte. -/
def leVal : List Nat → Nat
  | [] => 0
  | b :: bs => b + 256 * leVal bs

/-- The `width`-byte little-endian representation of `value`, as
`uN::to_le_bytes` produces it (for `u128`, `width = 16`). -/
def toLeBytes : Nat → Nat → List Nat
  | _, 0 => []
  | value, w + 1 => (value % 256) :: toLeBytes (value / 256) w

/-- `VarIntDecoder::decode_varint` from `src/rune_decode.rs` (lines 26-67):
a Bitcoin CompactSize decoder.  A prefix byte 0..=252 is the value itself;
prefixes 0xFD / 0xFE / 0xFF are followed by 2 / 4 / 8 little-endian payload
bytes.  The decoder state `(data, pos)` is passed explicitly; on success the
new cursor is returned.  Data bytes are u8, so the final branch is the
0xFF match arm. -/
def decode_varint (data : List Nat) (pos : Nat) : Except String (Nat × Nat) :=
  if data.length ≤ pos then .error "cursor beyond data length"
  else
    let byte := data.getD pos 0
    if byte ≤ 252 then .ok (byte, pos + 1)
    else if byte = 0xFD then
      if data.length ≤ pos + 2 then .error "VarInt data insufficient (0xFD)"
      else .ok (leVal ((data.drop (pos + 1)).take 2), pos + 3)
    else if byte = 0xFE then
      if data.length ≤ pos + 4 then .error "VarInt data insufficient (0xFE)"
      else .ok (leVal ((data.drop (pos + 1)).take 4), pos + 5)
    else
      if data.length ≤ pos + 8 then .error "VarInt data insufficient (0xFF)"
      else .ok (leVal ((data.drop (pos + 1)).take 8), pos + 9)

/-- `encode_varint` from `src/runes_builder.rs` (lines 30-55): CompactSize
encoder.  Note the last arm pushes `value.to_le_bytes()` of the full `u128`,
i.e. 16 bytes, after the 0xFF prefix. -/
def encode_varint (value : Nat) : List Nat :=
  if value ≤ 252 then [value]
  else if value ≤ 65535 then 0xFD :: toLeBytes value 2
  else if value ≤ 4294967295 then 0xFE :: toLeBytes value 4
  else 0xFF :: toLeBytes value 16

/-- `HashMap::insert` on the field map, observed through an association
list: if the key is present its entry is overwritten, otherwise the
binding is appended. -/
def insertField (m : List (Nat × Nat)) (k v : Nat) : List (Nat × Nat) :=
  if m.any (fun p => p.1 = k) then m.map (fun p => if p.1 = k then (k, v) else p)
  else m ++ [(k, v)]

/-- `HashMap::get` on the field map. -/
def lookupField (t : Nat) : List (Nat × Nat) → Option Nat
  | [] => none
  | p :: m => if p.1 = t then some p.2 else lookupField t m

/-- The `Runestone` struct of `src/rune_decode.rs`: its only data is the
decoded tag → value field map.  (The struct has no edict list.) -/
structure Runestone where
  fields : List (Nat × Nat)
deriving DecidableEq, Repr

/-- The tag/value scanning loop of `RunesParser::parse_runestone_data`
(lines 234-251): while not EOF, decode a tag; tag 0 (BODY) breaks; otherwise
decode a value and insert it into the field map.  `fuel` bounds the number
of iterations; the entry point passes the buffer length, which is proved
sufficient (`parseLoop_ext`). -/
def parseLoop (data : List Nat) : Nat → Nat → List (Nat × Nat) → Except String (List (Nat × Nat))
  | 0, _, fields => .ok fields
  | fuel + 1, pos, fields =>
    if data.length ≤ pos then .ok fields
    else
      match decode_varint data pos with
      | .error e => .error e
      | .ok (tag, pos1) =>
        if tag = 0 then .ok fields
        else
          match decode_varint data pos1 with
          | .error e => .error e
          | .ok (value, pos2) => parseLoop data fuel pos2 (insertField fields tag value)

/-- `RunesParser::parse_runestone_data` (lines 226-263). -/
def parse_runestone_data (data : List Nat) : Except String (Option Runestone) :=
  (parseLoop data data.length 0 []).map (fun fields => some ⟨fields⟩)

/-- The push-operation scanning loop of `RunesParser::parse_script_hex`
(lines 142-216): reads one opcode per step; 0x4c/0x4d/0x4e are PUSHDATA1/2/4
with an 8/16/32-bit little-endian length, 1..=75 is a direct push, any other
opcode stops the scan.  Push payloads are concatenated in encounter order. -/
def pushLoop (bytes : List Nat) : Nat → Nat → List Nat → Except String (List Nat)
  | 0, _, acc => .ok acc
  | fuel + 1, pos, acc =>
    if bytes.length ≤ pos then .ok acc
    else
      let op := bytes.getD pos 0
      if op = 0x4c then
        if bytes.length ≤ pos + 1 then .error "OP_PUSHDATA1 missing length byte"
        else
          let len := bytes.getD (pos + 1) 0
          if bytes.length < pos + 2 + len then .error "push data insufficient"
          else pushLoop bytes fuel (pos + 2 + len) (acc ++ (bytes.drop (pos + 2)).take len)
      else if op = 0x4d then
        if bytes.length ≤ pos + 2 then .error "OP_PUSHDATA2 missing length bytes"
        else
          let len := leVal ((bytes.drop (pos + 1)).take 2)
          if bytes.length < pos + 3 + len then .error "push data insufficient"
          else pushLoop bytes fuel (pos + 3 + len) (acc ++ (bytes.drop (pos + 3)).take len)
      else if op = 0x4e then
        if bytes.length ≤ pos + 4 then .error "OP_PUSHDATA4 missing length bytes"
        else
          let len := leVal ((bytes.drop (pos + 1)).take 4)
          if bytes.length < pos + 5 + len then .error "push data insufficient"
          else pushLoop bytes fuel (pos + 5 + len) (acc ++ (bytes.drop (pos + 5)).take len)
      else if 1 ≤ op ∧ op ≤ 75 then
        if bytes.length < pos + 1 + op then .error "push data insufficient"
        else pushLoop bytes fuel (pos + 1 + op) (acc ++ (bytes.drop (pos + 1)).take op)
      else .ok acc

/-- `RunesParser::parse_script_hex` (lines 108-223) after the hex string has
been decoded to bytes: byte 0 must be OP_RETURN (0x6a) and byte 1 must be
OP_PUSHNUM_13 (0x5d), otherwise `Ok(None)`; then the push payloads are
gathered and handed to `parse_runestone_data`. -/
def parse_script (bytes : List Nat) : Except String (Option Runestone) :=
  if bytes.length = 0 ∨ bytes.getD 0 0 ≠ 0x6a then .ok none
  else if bytes.length < 2 then .ok none
  else if bytes.getD 1 0 ≠ 0x5d then .ok none
  else
    match pushLoop bytes bytes.length 2 [] with
    | .error e => .error e
    | .ok data => parse_runestone_data data

/-- Stable insertion of a pair into a key-sorted list (auxiliary for
`sortFields`): an element is placed before the first strictly later element
whose key is not smaller, so elements with equal keys keep their order. -/
def insertSorted (p : Nat × Nat) : List (Nat × Nat) → List (Nat × Nat)
  | [] => [p]
  | q :: qs => if p.1 ≤ q.1 then p :: q :: qs else q :: insertSorted p qs

/-- `fields.sort_by_key(|f| f.0)` in `RunesBuilder::build`: stable sort of
the tag/value pairs by tag. -/
def sortFields : List (Nat × Nat) → List (Nat × Nat)
  | [] => []
  | p :: ps => insertSorted p (sortFields ps)

/-- Concatenated VarInt encoding of a list of tag/value pairs, as the loop
in `RunesBuilder::build` produces it. -/
def encodePairs (fields : List (Nat × Nat)) : List Nat :=
  fields.flatMap (fun p => encode_varint p.1 ++ encode_varint p.2)

/-- `Builder::push_slice`: a single minimal push operation carrying `data`
(direct push for at most 75 bytes, PUSHDATA1/2/4 beyond). -/
def pushSlice (data : List Nat) : List Nat :=
  if data.length ≤ 75 then data.length :: data
  else if data.length ≤ 255 then 0x4c :: data.length :: data
  else if data.length ≤ 65535 then 0x4d :: (toLeBytes data.length 2 ++ data)
  else 0x4e :: (toLeBytes data.length 4 ++ data)

/-- `RunesBuilder::build` (lines 178-228): sort the accumulated pairs by
tag, VarInt-encode each tag then its value, append the BODY terminator
(`encode_varint 0`), and wrap the data as `OP_RETURN OP_PUSHNUM_13 <push>`. -/
def build (fields : List (Nat × Nat)) : List Nat :=
  0x6a :: 0x5d :: pushSlice (encodePairs (sortFields fields) ++ encode_varint 0)

/-- The per-character mapping of `rune_name_to_integer`
(`src/runes_builder.rs` lines 67-84): letters map to 1..26 case-insensitively,
the spacer characters map to 0, every other character is skipped (`none`). -/
def charValue (c : Char) : Option Nat :=
  if 'A' ≤ c ∧ c ≤ 'Z' then some (c.toNat - 'A'.toNat + 1)
  else if 'a' ≤ c ∧ c ≤ 'z' then some (c.toNat - 'a'.toNat + 1)
  else if c = '•' ∨ c = '.' then some 0
  else none

/-- The accumulation loop of `rune_name_to_integer`: `result |= value << shift`
with `shift` advancing by 8 only for contributing characters.  `result` is a
`u128` in the source; on names with at most 16 contributing characters the
shift stays below 121 and every intermediate stays below 2^128, so the `Nat`
model coincides with the code. -/
def runeNameGo : List Char → Nat → Nat → Nat
  | [], _, result => result
  | c :: rest, shift, result =>
    match charValue c with
    | none => runeNameGo rest shift result
    | some v => runeNameGo rest (shift + 8) (result ||| (v <<< shift))

/-- `rune_name_to_integer` from `src/runes_builder.rs` (lines 67-84). -/
def rune_name_to_integer (name : String) : Nat :=
  runeNameGo name.data 0 0

/-- Equality of `Except` results is decidable componentwise. -/
instance {ε α : Type} [DecidableEq ε] [DecidableEq α] : DecidableEq (Except ε α) := fun a b =>
  match a, b with
  | .error x, .error y => decidable_of_iff (x = y) (by simp)
  | .error _, .ok _ => isFalse (fun h => Except.noConfusion h)
  | .ok _, .error _ => isFalse (fun h => Except.noConfusion h)
  | .ok x, .ok y => decidable_of_iff (x = y) (by simp)

/-- Modelled from the claim's words (spec section 4.1), for comparison with
the source's `decode_varint`: an LEB128-style decode in which each byte
contributes its low 7 bits, bit 0x80 signals that more bytes follow,
truncation is an error, and more than 18 bytes or a shift beyond 127 is an
overflow error. -/
def leb128Step (data : List Nat) : Nat → Nat → Nat → Nat → Except String (Nat × Nat)
  | 0, _, _, _ => .error "Overflow: more than 18 bytes"
  | fuel + 1, pos, value, shift =>
    if 127 < shift then .error "Overflow: shift exceeds 127"
    else if data.length ≤ pos then .error "Truncated"
    else
      let b := data.getD pos 0
      if b < 128 then .ok (value ||| (b <<< shift), pos + 1)
      else leb128Step data fuel (pos + 1) (value ||| ((b % 128) <<< shift)) (shift + 7)

/-- Modelled from the claim's words: decode one LEB128 value starting at
`pos`, consuming at most 18 bytes. -/
def leb128_decode_claim (data : List Nat) (pos : Nat) : Except String (Nat × Nat) :=
  leb128Step data 18 pos 0 0

/-! ## Arithmetic helpers for the little-endian byte codec -/

lemma toLeBytes_length (v w : Nat) : (toLeBytes v w).length = w := by
  induction w generalizing v with
  | zero => rfl
  | succ w ih => simp [toLeBytes, ih]

lemma mod_mul_split (v K : Nat) (hK : 0 < K) :
    v % (256 * K) = v % 256 + 256 * (v / 256 % K) := by
  have hr1 : v % 256 < 256 := Nat.mod_lt v (by norm_num)
  have hr2 : v / 256 % K < K := Nat.mod_lt _ hK
  conv_lhs => rw [← Nat.div_add_mod v 256, ← Nat.div_add_mod (v / 256) K]
  rw [Nat.mul_add 256, Nat.add_assoc, ← Nat.mul_assoc, Nat.mul_add_mod]
  rw [Nat.mod_eq_of_lt (by omega)]
  omega

lemma leVal_toLeBytes (w : Nat) : ∀ v, leVal (toLeBytes v w) = v % 256 ^ w := by
  induction w with
  | zero => intro v; simp [toLeBytes, leVal, Nat.mod_one]
  | succ w ih =>
    intro v
    show leVal ((v % 256) :: toLeBytes (v / 256) w) = v % 256 ^ (w + 1)
    rw [leVal, ih, Nat.pow_succ, Nat.mul_comm (256 ^ w) 256,
      mod_mul_split v (256 ^ w) (Nat.pos_pow_of_pos w (by norm_num))]

/-! ## VarInt round trip and cursor-shift lemmas -/

lemma decode_encode (v : Nat) (hv : v < 2 ^ 32) (ys : List Nat) :
    decode_varint (encode_varint v ++ ys) 0 = .ok (v, (encode_varint v).length) := by
  by_cases h1 : v ≤ 252
  · simp [encode_varint, h1, decode_varint]
  · by_cases h2 : v ≤ 65535
    · have he : encode_varint v = 0xFD :: toLeBytes v 2 := by simp [encode_varint, h1, h2]
      rw [he]
      have hv2 : leVal (toLeBytes v 2) = v := by
        rw [leVal_toLeBytes]
        exact Nat.mod_eq_of_lt (by omega)
      simp [decode_varint, toLeBytes_length]
      rw [if_neg (by omega), hv2]
    · have h3 : v ≤ 4294967295 := by omega
      have he : encode_varint v = 0xFE :: toLeBytes v 4 := by
        simp [encode_varint, h1, h2, h3]
      rw [he]
      have hv4 : leVal (toLeBytes v 4) = v := by
        rw [leVal_toLeBytes]
        exact Nat.mod_eq_of_lt (by omega)
      simp [decode_varint, toLeBytes_length]
      rw [if_neg (by omega), hv4]

lemma decode_shift (xs rest : List Nat) (p : Nat) :
    decode_varint (xs ++ rest) (xs.length + p)
      = (decode_varint rest p).map (fun r => (r.1, xs.length + r.2)) := by
  have hgd : (xs ++ rest).getD (xs.length + p) 0 = rest.getD p 0 := by
    rw [List.getD_append_right _ _ _ _ (by omega)]
    congr 1
    omega
  have hdrop : (xs ++ rest).drop (xs.length + (p + 1)) = rest.drop (p + 1) := by
    rw [← List.drop_drop, List.drop_left]
  simp only [decode_varint, List.length_append, hgd, Nat.add_assoc,
    Nat.add_le_add_iff_left, hdrop, Except.map]
  split_ifs <;> rfl

lemma decode_at_prefix (xs : List Nat) (v : Nat) (hv : v < 2 ^ 32) (ys : List Nat) :
    decode_varint (xs ++ (encode_varint v ++ ys)) xs.length
      = .ok (v, xs.length + (encode_varint v).length) := by
  have h := decode_shift xs (encode_varint v ++ ys) 0
  rw [Nat.add_zero] at h
  rw [h, decode_encode v hv ys]
  rfl

/-! ## Cursor progress and loop stability -/

lemma decode_varint_progress (data : List Nat) (pos v pos' : Nat)
    (h : decode_varint data pos = .ok (v, pos')) : pos < pos' := by
  simp only [decode_varint] at h
  split_ifs at h <;>
    first
      | exact Except.noConfusion h
      | (injection h with h1; injection h1 with hv hp; omega)

lemma parseLoop_at_eof (data : List Nat) (fuel pos : Nat) (fields : List (Nat × Nat))
    (h : data.length ≤ pos) : parseLoop data fuel pos fields = .ok fields := by
  cases fuel <;> simp [parseLoop, h]

lemma parseLoop_ext (data : List Nat) :
    ∀ k pos fields f₁ f₂, data.length - pos ≤ k →
      data.length - pos ≤ f₁ → data.length - pos ≤ f₂ →
      parseLoop data f₁ pos fields = parseLoop data f₂ pos fields := by
  intro k
  induction k with
  | zero =>
    intro pos fields f₁ f₂ hk h1 h2
    rw [parseLoop_at_eof data f₁ pos fields (by omega),
      parseLoop_at_eof data f₂ pos fields (by omega)]
  | succ k ih =>
    intro pos fields f₁ f₂ hk h1 h2
    by_cases hp : data.length ≤ pos
    · rw [parseLoop_at_eof data f₁ pos fields hp, parseLoop_at_eof data f₂ pos fields hp]
    · cases f₁ with
      | zero => omega
      | succ a =>
        cases f₂ with
        | zero => omega
        | succ b =>
          simp only [parseLoop, if_neg hp]
          cases hdec : decode_varint data pos with
          | error e => rfl
          | ok r =>
            obtain ⟨tag, pos1⟩ := r
            by_cases ht : tag = 0
            · simp [ht]
            · simp only [if_neg ht]
              cases hdec2 : decode_varint data pos1 with
              | error e => rfl
              | ok r2 =>
                obtain ⟨value, pos2⟩ := r2
                have p1 : pos < pos1 := decode_varint_progress _ _ _ _ hdec
                have p2 : pos1 < pos2 := decode_varint_progress _ _ _ _ hdec2
                exact ih pos2 (insertField fields tag value) a b (by omega) (by omega) (by omega)

lemma pushLoop_at_eof (bytes : List Nat) (fuel pos : Nat) (acc : List Nat)
    (h : bytes.length ≤ pos) : pushLoop bytes fuel pos acc = .ok acc := by
  cases fuel <;> simp [pushLoop, h]

lemma pushLoop_ext (bytes : List Nat) :
    ∀ k pos acc f₁ f₂, bytes.length - pos ≤ k →
      bytes.length - pos ≤ f₁ → bytes.length - pos ≤ f₂ →
      pushLoop bytes f₁ pos acc = pushLoop bytes f₂ pos acc := by
  intro k
  induction k with
  | zero =>
    intro pos acc f₁ f₂ hk h1 h2
    rw [pushLoop_at_eof bytes f₁ pos acc (by omega),
      pushLoop_at_eof bytes f₂ pos acc (by omega)]
  | succ k ih =>
    intro pos acc f₁ f₂ hk h1 h2
    by_cases hp : bytes.length ≤ pos
    · rw [pushLoop_at_eof bytes f₁ pos acc hp, pushLoop_at_eof bytes f₂ pos acc hp]
    · cases f₁ with
      | zero => omega
      | succ a =>
        cases f₂ with
        | zero => omega
        | succ b =>
          simp only [pushLoop, if_neg hp]
          split_ifs <;> first
            | rfl
            | (apply ih <;> omega)

/-! ## Parsing a buffer of encoded tag/value pairs -/

lemma encode_varint_len_pos (v : Nat) : 1 ≤ (encode_varint v).length := by
  unfold encode_varint
  split_ifs <;> simp

lemma encodePairs_cons (p : Nat × Nat) (ps : List (Nat × Nat)) :
    encodePairs (p :: ps)
      = encode_varint p.1 ++ (encode_varint p.2 ++ encodePairs ps) := by
  simp [encodePairs, List.append_assoc]

lemma encodePairs_length_ge (ps : List (Nat × Nat)) :
    ps.length ≤ (encodePairs ps).length := by
  induction ps with
  | nil => simp [encodePairs]
  | cons p ps ih =>
    rw [encodePairs_cons]
    simp only [List.length_append, List.length_cons]
    have h1 := encode_varint_len_pos p.1
    omega

lemma parseLoop_pairs (ps : List (Nat × Nat)) :
    ∀ (xs tail : List Nat) (fields : List (Nat × Nat)) (fuel : Nat),
      ps.length ≤ fuel →
      (∀ p ∈ ps, p.1 ≠ 0 ∧ p.1 < 2 ^ 32 ∧ p.2 < 2 ^ 32) →
      parseLoop (xs ++ (encodePairs ps ++ tail)) fuel xs.length fields
        = parseLoop (xs ++ (encodePairs ps ++ tail)) (fuel - ps.length)
            (xs.length + (encodePairs ps).length)
            (ps.foldl (fun m p => insertField m p.1 p.2) fields) := by
  induction ps with
  | nil =>
    intro xs tail fields fuel _ _
    simp [encodePairs]
  | cons p ps ih =>
    intro xs tail fields fuel hfuel hps
    obtain ⟨hp0, hp1, hp2⟩ := hps p (List.mem_cons_self p ps)
    cases fuel with
    | zero => simp at hfuel
    | succ f =>
      have hdata : xs ++ (encodePairs (p :: ps) ++ tail)
          = xs ++ (encode_varint p.1
              ++ (encode_varint p.2 ++ (encodePairs ps ++ tail))) := by
        rw [encodePairs_cons]
        simp [List.append_assoc]
      rw [hdata]
      have hnotEof :
          ¬ ((xs ++ (encode_varint p.1
              ++ (encode_varint p.2 ++ (encodePairs ps ++ tail)))).length ≤ xs.length) := by
        simp only [List.length_append]
        have := encode_varint_len_pos p.1
        omega
      have hdec1 := decode_at_prefix xs p.1 hp1
        (encode_varint p.2 ++ (encodePairs ps ++ tail))
      have hdec2 : decode_varint
          (xs ++ (encode_varint p.1 ++ (encode_varint p.2 ++ (encodePairs ps ++ tail))))
          (xs.length + (encode_varint p.1).length)
          = .ok (p.2, xs.length + (encode_varint p.1).length + (encode_varint p.2).length) := by
        have h := decode_at_prefix (xs ++ encode_varint p.1) p.2 hp2 (encodePairs ps ++ tail)
        rw [List.length_append] at h
        rw [← h]
        congr 1
        simp [List.append_assoc]
      simp only [parseLoop, if_neg hnotEof, hdec1, hdec2, if_neg hp0]
      have hih := ih (xs ++ (encode_varint p.1 ++ encode_varint p.2)) tail
        (insertField fields p.1 p.2) f (by simpa using hfuel)
        (fun q hq => hps q (List.mem_cons_of_mem p hq))
      rw [List.length_append, List.length_append] at hih
      have hshape : (xs ++ (encode_varint p.1 ++ encode_varint p.2)) ++ (encodePairs ps ++ tail)
          = xs ++ (encode_varint p.1 ++ (encode_varint p.2 ++ (encodePairs ps ++ tail))) := by
        simp [List.append_assoc]
      rw [hshape] at hih
      rw [Nat.add_assoc] at hih
      rw [← Nat.add_assoc xs.length ((encode_varint p.1).length) ((encode_varint p.2).length)] at hih
      rw [hih]
      congr 1
      · simp only [List.length_cons]
        omega
      · rw [encodePairs_cons]
        simp only [List.length_append]
        omega

lemma parse_encodePairs (ps : List (Nat × Nat))
    (hps : ∀ p ∈ ps, p.1 ≠ 0 ∧ p.1 < 2 ^ 32 ∧ p.2 < 2 ^ 32) :
    parse_runestone_data (encodePairs ps)
      = .ok (some ⟨ps.foldl (fun m p => insertField m p.1 p.2) []⟩) := by
  unfold parse_runestone_data
  have h := parseLoop_pairs ps [] [] [] (encodePairs ps).length
    (encodePairs_length_ge ps) hps
  simp only [List.nil_append, List.append_nil, List.length_nil, Nat.zero_add] at h
  rw [h, parseLoop_at_eof _ _ _ _ (by omega)]
  rfl

lemma parse_pairs_body (ps : List (Nat × Nat)) (rest : List Nat)
    (hps : ∀ p ∈ ps, p.1 ≠ 0 ∧ p.1 < 2 ^ 32 ∧ p.2 < 2 ^ 32) :
    parse_runestone_data (encodePairs ps ++ (encode_varint 0 ++ rest))
      = .ok (some ⟨ps.foldl (fun m p => insertField m p.1 p.2) []⟩) := by
  unfold parse_runestone_data
  set data := encodePairs ps ++ (encode_varint 0 ++ rest) with hdata
  have h01 : (encode_varint 0).length = 1 := by simp [encode_varint]
  have hlen : data.length = (encodePairs ps).length + 1 + rest.length := by
    rw [hdata]
    simp only [List.length_append, h01]
    omega
  have hfuel : ps.length ≤ data.length := by
    have := encodePairs_length_ge ps
    omega
  have h := parseLoop_pairs ps [] (encode_varint 0 ++ rest) [] data.length hfuel hps
  rw [show ([] : List Nat) ++ (encodePairs ps ++ (encode_varint 0 ++ rest)) = data from by
    simp [hdata]] at h
  simp only [List.length_nil, Nat.zero_add] at h
  rw [h]
  have hrem : 1 ≤ data.length - ps.length := by
    have := encodePairs_length_ge ps
    omega
  cases hg : data.length - ps.length with
  | zero => omega
  | succ g =>
    have hnotEof : ¬ (data.length ≤ (encodePairs ps).length) := by omega
    have hdec : decode_varint data (encodePairs ps).length
        = .ok (0, (encodePairs ps).length + (encode_varint 0).length) := by
      rw [hdata]
      exact decode_at_prefix (encodePairs ps) 0 (by norm_num) rest
    simp [parseLoop, hnotEof, hdec, Except.map]

lemma parse_pairs_dangling (ps : List (Nat × Nat)) (t : Nat)
    (hps : ∀ p ∈ ps, p.1 ≠ 0 ∧ p.1 < 2 ^ 32 ∧ p.2 < 2 ^ 32)
    (ht0 : t ≠ 0) (ht : t < 2 ^ 32) :
    parse_runestone_data (encodePairs ps ++ encode_varint t)
      = .error "cursor beyond data length" := by
  unfold parse_runestone_data
  set data := encodePairs ps ++ encode_varint t with hdata
  have hlen : data.length = (encodePairs ps).length + (encode_varint t).length := by
    rw [hdata]
    simp [List.length_append]
  have htl := encode_varint_len_pos t
  have hfuel : ps.length ≤ data.length := by
    have := encodePairs_length_ge ps
    omega
  have h := parseLoop_pairs ps [] (encode_varint t) [] data.length hfuel hps
  rw [show ([] : List Nat) ++ (encodePairs ps ++ encode_varint t) = data from by
    simp [hdata]] at h
  simp only [List.length_nil, Nat.zero_add] at h
  rw [h]
  have hrem : 1 ≤ data.length - ps.length := by
    have := encodePairs_length_ge ps
    omega
  cases hg : data.length - ps.length with
  | zero => omega
  | succ g =>
    have hnotEof : ¬ (data.length ≤ (encodePairs ps).length) := by omega
    have hdec : decode_varint data (encodePairs ps).length
        = .ok (t, (encodePairs ps).length + (encode_varint t).length) := by
      have h2 := decode_at_prefix (encodePairs ps) t ht []
      rw [List.append_nil] at h2
      rw [hdata]
      exact h2
    have hdec2 : decode_varint data ((encodePairs ps).length + (encode_varint t).length)
        = .error "cursor beyond data length" := by
      unfold decode_varint
      rw [if_pos (by omega)]
    simp [parseLoop, hnotEof, hdec, if_neg ht0, hdec2, Except.map]

/-! ## Field-map lookup through insertion -/

lemma lookupField_replace (k v t : Nat) :
    ∀ m : List (Nat × Nat),
      lookupField t (m.map (fun p => if p.1 = k then (k, v) else p))
        = if (m.any (fun p => p.1 = k)) = true ∧ k = t then some v
          else lookupField t m := by
  intro m
  induction m with
  | nil => simp [lookupField]
  | cons p m ih =>
    simp only [List.map_cons, List.any_cons]
    by_cases hp : p.1 = k
    · by_cases hkt : k = t
      · simp [lookupField, hp, hkt]
      · rw [if_pos hp]
        simp only [lookupField, ih]
        split_ifs <;> simp_all
    · rw [if_neg hp]
      by_cases hpt : p.1 = t
      · simp only [lookupField, if_pos hpt]
        split_ifs with hcond
        · exact absurd (hpt.trans hcond.2.symm) hp
        · rfl
      · simp only [lookupField, if_neg hpt, ih]
        split_ifs with h1 h2 h3
        · rfl
        · exact absurd ⟨Eq.mpr (Bool.or_eq_true _ _) (Or.inr h1.1), h1.2⟩ h2
        · rcases Eq.mp (Bool.or_eq_true _ _) h3.1 with hd | hany
          · exact absurd (of_decide_eq_true hd) hp
          · exact absurd ⟨hany, h3.2⟩ h1
        · rfl

lemma lookupField_append_single (t k v : Nat) :
    ∀ m : List (Nat × Nat), (∀ p ∈ m, p.1 ≠ k) →
      lookupField t (m ++ [(k, v)])
        = if t = k then some v else lookupField t m := by
  intro m
  induction m with
  | nil =>
    intro _
    by_cases htk : t = k
    · simp [lookupField, htk]
    · simp only [List.nil_append, lookupField]
      rw [if_neg (fun h => htk h.symm), if_neg htk]
  | cons p m ih =>
    intro hm
    have hp : p.1 ≠ k := hm p (List.mem_cons_self p m)
    by_cases hpt : p.1 = t
    · have htk : t ≠ k := by
        intro h
        exact hp (by rw [hpt, h])
      simp [lookupField, hpt, htk]
    · simp only [List.cons_append, lookupField, if_neg hpt]
      exact ih (fun q hq => hm q (List.mem_cons_of_mem p hq))

lemma lookupField_of_no_key (k : Nat) :
    ∀ m : List (Nat × Nat), (m.any (fun p => p.1 = k)) = false →
      ∀ p ∈ m, p.1 ≠ k := by
  intro m hm p hp hk
  have h3 : (m.any fun q => q.1 = k) = true :=
    List.any_eq_true.mpr ⟨p, hp, by simp [hk]⟩
  rw [hm] at h3
  exact Bool.noConfusion h3

lemma lookupField_insertField (m : List (Nat × Nat)) (k v t : Nat) :
    lookupField t (insertField m k v)
      = if t = k then some v else lookupField t m := by
  unfold insertField
  by_cases ha : m.any (fun p => p.1 = k)
  · rw [if_pos ha, lookupField_replace]
    by_cases htk : t = k
    · simp [ha, htk]
    · simp only [ha, true_and]
      rw [if_neg (fun h => htk h.symm), if_neg htk]
  · rw [if_neg ha]
    have hfalse : (m.any fun p => p.1 = k) = false := by
      cases hcase : (m.any fun p => p.1 = k)
      · rfl
      · exact absurd hcase ha
    exact lookupField_append_single t k v m (lookupField_of_no_key k m hfalse)

lemma lookupField_foldl_insert (t : Nat) :
    ∀ (ps m : List (Nat × Nat)),
      lookupField t (ps.foldl (fun acc p => insertField acc p.1 p.2) m)
        = ps.foldl (fun acc p => if t = p.1 then some p.2 else acc) (lookupField t m) := by
  intro ps
  induction ps with
  | nil => intro m; rfl
  | cons p ps ih =>
    intro m
    simp only [List.foldl_cons]
    rw [ih, lookupField_insertField]

/-! ## Bit packing: `or` of disjoint ranges is addition -/

lemma lor_mul_two_pow_add (n : Nat) :
    ∀ a b : Nat, a < 2 ^ n → a ||| (b * 2 ^ n) = a + b * 2 ^ n := by
  induction n with
  | zero =>
    intro a b h
    have ha : a = 0 := by omega
    subst ha
    simp [Nat.zero_or]
  | succ n ih =>
    intro a b h
    have hbit : Nat.bit (Nat.bodd a) (Nat.div2 a) = a := Nat.bit_decomp a
    have hval : a = 2 * Nat.div2 a + (Nat.bodd a).toNat := by
      rw [← Nat.bit_val, hbit]
    have hb2 : b * 2 ^ (n + 1) = Nat.bit false (b * 2 ^ n) := by
      rw [Nat.bit_val, Nat.pow_succ]
      show b * (2 ^ n * 2) = 2 * (b * 2 ^ n) + (0 : Nat)
      ring
    have htn : (Nat.bodd a).toNat ≤ 1 := by
      cases Nat.bodd a <;> simp
    have hd : Nat.div2 a < 2 ^ n := by
      rw [Nat.pow_succ] at h
      omega
    calc a ||| (b * 2 ^ (n + 1))
        = Nat.bit (Nat.bodd a) (Nat.div2 a) ||| Nat.bit false (b * 2 ^ n) := by
          rw [hbit, hb2]
      _ = Nat.bit (Nat.bodd a || false) (Nat.div2 a ||| (b * 2 ^ n)) :=
          Nat.lor_bit _ _ _ _
      _ = Nat.bit (Nat.bodd a) (Nat.div2 a + b * 2 ^ n) := by
          rw [Bool.or_false, ih _ _ hd]
      _ = a + b * 2 ^ (n + 1) := by
          rw [Nat.bit_val, Nat.pow_succ]
          conv_rhs => rw [hval]
          ring

lemma lor_shiftLeft_add (a b n : Nat) (h : a < 2 ^ n) :
    a ||| (b <<< n) = a + b * 2 ^ n := by
  rw [Nat.shiftLeft_eq]
  exact lor_mul_two_pow_add n a b h

/-! ## The rune-name accumulator computes a little-endian byte string -/

lemma charValue_lt (c : Char) (v : Nat) (h : charValue c = some v) : v < 256 := by
  unfold charValue at h
  split_ifs at h with h1 h2 h3
  · injection h with hv
    have hz : c.toNat ≤ 90 := h1.2
    omega
  · injection h with hv
    have hz : c.toNat ≤ 122 := h2.2
    omega
  · injection h with hv
    omega

lemma runeNameGo_eq (l : List Char) :
    ∀ shift result, result < 2 ^ shift →
      runeNameGo l shift result
        = result + leVal (l.filterMap charValue) * 2 ^ shift := by
  induction l with
  | nil =>
    intro shift result _
    simp [runeNameGo, leVal]
  | cons c l ih =>
    intro shift result hres
    cases hc : charValue c with
    | none => simp [runeNameGo, hc, List.filterMap_cons, ih shift result hres]
    | some v =>
      have hv : v < 256 := charValue_lt c v hc
      have hlor : result ||| (v <<< shift) = result + v * 2 ^ shift :=
        lor_shiftLeft_add result v shift hres
      have hpow : (2 : Nat) ^ (shift + 8) = 2 ^ shift * 256 := by
        rw [Nat.pow_add]
      have hmul : v * 2 ^ shift ≤ 255 * 2 ^ shift :=
        Nat.mul_le_mul_right _ (by omega)
      have hbound : result + v * 2 ^ shift < 2 ^ (shift + 8) := by
        rw [hpow]
        omega
      simp only [runeNameGo, hc, List.filterMap_cons]
      rw [hlor, ih (shift + 8) _ hbound, leVal]
      rw [hpow]
      ring

lemma rune_name_to_integer_eq (s : String) :
    rune_name_to_integer s = leVal (s.data.filterMap charValue) := by
  unfold rune_name_to_integer
  have h := runeNameGo_eq s.data 0 0 (by norm_num)
  simpa using h

/-! ## Claim C1 -/

/-- Claim C1, counterexample: the round trip `decode(encode v) = (v, len(encode v))`
fails at `v = 2^32`.  The encoder emits `0xFF` followed by all 16 little-endian
bytes of the `u128` (17 bytes in total), but the decoder reads only 8 payload
bytes after `0xFF`, so the cursor lands at 9, not 17; for `v = 2^64` even the
decoded value is wrong (it is `v mod 2^64 = 0`). -/
theorem C1_counterexample :
    decode_varint (encode_varint (2 ^ 32)) 0
        ≠ .ok (2 ^ 32, (encode_varint (2 ^ 32)).length) ∧
    decode_varint (encode_varint (2 ^ 32)) 0 = .ok (2 ^ 32, 9) ∧
    (encode_varint (2 ^ 32)).length = 17 ∧
    decode_varint (encode_varint (2 ^ 64)) 0 = .ok (0, 9) := by decide

/-- Claim C1, amended: for every value `v < 2^32`, VarInt decoding the bytes
produced by VarInt encoding `v` yields exactly `(v, len(encode v))` — the
decoded value equals `v` and the cursor lands exactly at the end of the
encoding — and encoding zero produces the single byte `0x00`. -/
theorem C1_varint_roundtrip_small (v : Nat) (h : v < 2 ^ 32) :
    decode_varint (encode_varint v) 0 = .ok (v, (encode_varint v).length) ∧
    encode_varint 0 = [0] := by
  constructor
  · have h2 := decode_encode v h []
    simpa using h2
  · rfl

/-- Claim C1, witness: the amended round trip at `v = 300`. -/
theorem C1_witness :
    300 < 2 ^ 32 ∧
    (decode_varint (encode_varint 300) 0 = .ok (300, (encode_varint 300).length) ∧
     encode_varint 0 = [0]) :=
  ⟨by norm_num, C1_varint_roundtrip_small 300 (by norm_num)⟩

/-! ## Claim C2 -/

/-- Claim C2, counterexample: the decoder is not the LEB128 scheme the claim
describes.  On the buffer `[0x85, 0x00]` a low-7-bits/continuation-bit decode
yields `(5, 2)`, but the code's decoder treats `0x85 = 133 ≤ 252` as a literal
and yields `(133, 1)`. -/
theorem C2_counterexample :
    decode_varint [0x85, 0x00] 0 = .ok (133, 1) ∧
    leb128_decode_claim [0x85, 0x00] 0 = .ok (5, 2) ∧
    decode_varint [0x85, 0x00] 0 ≠ leb128_decode_claim [0x85, 0x00] 0 := by decide

/-- Claim C2, amended: the decoder reads a CompactSize prefix byte at the
cursor — a byte 0..=252 is the value itself (cursor advances 1); prefixes
0xFD / 0xFE / 0xFF are followed by 2 / 4 / 8 little-endian payload bytes
(cursor advances 3 / 5 / 9); a cursor at or past the end of the buffer, or a
missing payload, is a truncation error — in particular decoding `[0xFD]`
alone fails.  There is no 7-bit continuation chain and no 18-byte or
shift-127 overflow rule. -/
theorem C2_compactsize_decode :
    (∀ b rest, b ≤ 252 → decode_varint (b :: rest) 0 = .ok (b, 1)) ∧
    (∀ b0 b1 rest, decode_varint (0xFD :: b0 :: b1 :: rest) 0 = .ok (b0 + 256 * b1, 3)) ∧
    (∀ b0 b1 b2 b3 rest,
       decode_varint (0xFE :: b0 :: b1 :: b2 :: b3 :: rest) 0
         = .ok (b0 + 256 * (b1 + 256 * (b2 + 256 * b3)), 5)) ∧
    (∀ bs rest, bs.length = 8 →
       decode_varint (0xFF :: (bs ++ rest)) 0 = .ok (leVal bs, 9)) ∧
    (∀ data pos, data.length ≤ pos →
       decode_varint data pos = .error "cursor beyond data length") ∧
    decode_varint [0xFD] 0 = .error "VarInt data insufficient (0xFD)" := by
  refine ⟨?_, ?_, ?_, ?_, ?_, by decide⟩
  · intro b rest hb
    simp [decode_varint, hb]
  · intro b0 b1 rest
    simp [decode_varint, leVal]
  · intro b0 b1 b2 b3 rest
    simp [decode_varint, leVal]
  · intro bs rest h
    simp only [decode_varint, List.length_cons, List.length_append, h]
    rw [if_neg (by omega), if_neg (by norm_num), if_neg (by norm_num), if_neg (by norm_num),
      if_neg (by omega)]
    have hdrop : (((255 : Nat) :: (bs ++ rest)).drop 1) = bs ++ rest := rfl
    rw [hdrop, ← h, List.take_left]
  · intro data pos h
    unfold decode_varint
    rw [if_pos h]

/-- Claim C2, witness: the characterization applied at concrete buffers. -/
theorem C2_witness :
    (7 : Nat) ≤ 252 ∧ decode_varint [7, 9] 0 = .ok (7, 1) ∧
    ([1, 0, 0, 0, 0, 0, 0, 2] : List Nat).length = 8 ∧
    decode_varint (0xFF :: (([1, 0, 0, 0, 0, 0, 0, 2] : List Nat) ++ [99])) 0
      = .ok (leVal [1, 0, 0, 0, 0, 0, 0, 2], 9) ∧
    ([] : List Nat).length ≤ 5 ∧
    decode_varint [] 5 = .error "cursor beyond data length" :=
  ⟨by norm_num, C2_compactsize_decode.1 7 [9] (by norm_num),
   by decide, C2_compactsize_decode.2.2.2.1 [1, 0, 0, 0, 0, 0, 0, 2] [99] (by decide),
   by decide, C2_compactsize_decode.2.2.2.2.1 [] 5 (by decide)⟩

/-! ## Claim C3 -/

/-- Claim C3, counterexample: the decoder does not consume edict groups after
the BODY tag.  The payload carrying the delta-encoded edict list
`[(5,1,10,0), (0,2,20,1), (2,0,5,0)]` after the BODY tag decodes to the same
empty runestone as the lone BODY terminator: every post-BODY integer is
discarded and the decoded `Runestone` has no edict list at all, so decoding
cannot yield the claimed edict list. -/
theorem C3_counterexample :
    parse_runestone_data [0, 5, 1, 10, 0, 0, 2, 20, 1, 2, 0, 5, 0] = .ok (some ⟨[]⟩) ∧
    parse_runestone_data [0] = .ok (some ⟨[]⟩) := by decide

/-- Claim C3, amended: after the BODY tag (tag 0) is read, parsing stops
immediately — the remaining integers are discarded without being grouped,
delta-decoded or validated, and the result carries only the tag/value fields
read before BODY; no edict list is emitted, so the edict round trip cannot
hold. -/
theorem C3_body_discards_rest (ps : List (Nat × Nat)) (rest : List Nat)
    (hps : ∀ p ∈ ps, p.1 ≠ 0 ∧ p.1 < 2 ^ 32 ∧ p.2 < 2 ^ 32) :
    parse_runestone_data (encodePairs ps ++ (encode_varint 0 ++ rest))
      = .ok (some ⟨ps.foldl (fun m p => insertField m p.1 p.2) []⟩) :=
  parse_pairs_body ps rest hps

/-- Claim C3, witness: one field pair followed by BODY and a discarded edict
group. -/
theorem C3_witness :
    (∀ p ∈ [((2 : Nat), (7 : Nat))], p.1 ≠ 0 ∧ p.1 < 2 ^ 32 ∧ p.2 < 2 ^ 32) ∧
    parse_runestone_data (encodePairs [(2, 7)] ++ (encode_varint 0 ++ [5, 1, 10, 0]))
      = .ok (some ⟨[((2 : Nat), (7 : Nat))].foldl (fun m p => insertField m p.1 p.2) []⟩) :=
  ⟨by decide, C3_body_discards_rest [(2, 7)] [5, 1, 10, 0] (by decide)⟩

/-! ## Claim C4 -/

/-- Claim C4, counterexample: an edict group decoding to `block = 0, tx = 5`
does not fail with `InvalidRuneId` — the payload `[0, 0, 5, 10, 0]` (BODY
terminator followed by the group `(0, 5, 10, 0)`) decodes successfully to an
empty runestone. -/
theorem C4_counterexample :
    parse_runestone_data [0, 0, 5, 10, 0] = .ok (some ⟨[]⟩) := by decide

/-- Claim C4, amended: the decoder performs no `RuneId` validation at all —
whatever follows the BODY tag, including a group that the spec would resolve
to `block = 0, tx = 5`, is discarded and decoding succeeds. -/
theorem C4_no_runeid_validation (rest : List Nat) :
    parse_runestone_data (0 :: rest) = .ok (some ⟨[]⟩) := by
  have hdec : decode_varint (0 :: rest) 0 = .ok (0, 1) := by
    simp [decode_varint]
  unfold parse_runestone_data
  simp only [List.length_cons, parseLoop, hdec]
  rw [if_neg (by omega)]
  simp [Except.map]

/-- Claim C4, witness: the amended statement at the concrete invalid-id
group. -/
theorem C4_witness :
    parse_runestone_data (0 :: [0, 5, 10, 0]) = .ok (some ⟨[]⟩) :=
  C4_no_runeid_validation [0, 5, 10, 0]

/-! ## Claim C5 -/

/-- Claim C5, counterexample: duplicate tags keep the LAST occurrence, not the
first.  The payload `[2, 1, 2, 9]` binds tag 2 first to 1 and then to 9; the
decoded field map holds 9. -/
theorem C5_counterexample :
    parse_runestone_data [2, 1, 2, 9] = .ok (some ⟨[(2, 9)]⟩) ∧
    lookupField 2 [(2, 9)] = some 9 := by decide

/-- Claim C5, amended: when the same tag appears more than once before the
BODY terminator, the decoded field map's authoritative value for that tag is
the value of the tag's LAST occurrence — each later occurrence overwrites the
earlier one via `HashMap::insert`. -/
theorem C5_last_occurrence_wins (ps : List (Nat × Nat)) (t : Nat)
    (hps : ∀ p ∈ ps, p.1 ≠ 0 ∧ p.1 < 2 ^ 32 ∧ p.2 < 2 ^ 32) :
    parse_runestone_data (encodePairs ps)
      = .ok (some ⟨ps.foldl (fun m p => insertField m p.1 p.2) []⟩) ∧
    lookupField t (ps.foldl (fun m p => insertField m p.1 p.2) [])
      = ps.foldl (fun acc p => if t = p.1 then some p.2 else acc) none := by
  refine ⟨parse_encodePairs ps hps, ?_⟩
  have h := lookupField_foldl_insert t ps []
  simpa [lookupField] using h

/-- Claim C5, witness: tag 2 bound to 1 and then 9; the final fold yields 9. -/
theorem C5_witness :
    (∀ p ∈ [((2 : Nat), (1 : Nat)), (2, 9)], p.1 ≠ 0 ∧ p.1 < 2 ^ 32 ∧ p.2 < 2 ^ 32) ∧
    (parse_runestone_data (encodePairs [(2, 1), (2, 9)])
       = .ok (some ⟨[((2 : Nat), (1 : Nat)), (2, 9)].foldl
           (fun m p => insertField m p.1 p.2) []⟩) ∧
     lookupField 2 ([((2 : Nat), (1 : Nat)), (2, 9)].foldl
         (fun m p => insertField m p.1 p.2) [])
       = [((2 : Nat), (1 : Nat)), (2, 9)].foldl
           (fun acc p => if 2 = p.1 then some p.2 else acc) none) :=
  ⟨by decide, C5_last_occurrence_wins [(2, 1), (2, 9)] 2 (by decide)⟩

/-! ## Claim C6 -/

/-- Claim C6: for every script whose byte 0 is not OP_RETURN (0x6a) or whose
byte 1 is not OP_PUSHNUM_13 (0x5d) — including scripts of length 0 or 1 —
decoding returns the successful negative result `Ok(None)`, never an error. -/
theorem C6_not_protocol_ok_none (bytes : List Nat)
    (h : bytes.length < 2 ∨ bytes.getD 0 0 ≠ 0x6a ∨ bytes.getD 1 0 ≠ 0x5d) :
    parse_script bytes = .ok none := by
  unfold parse_script
  by_cases h1 : bytes.length = 0 ∨ bytes.getD 0 0 ≠ 0x6a
  · rw [if_pos h1]
  · rw [if_neg h1]
    by_cases h2 : bytes.length < 2
    · rw [if_pos h2]
    · rw [if_neg h2]
      push_neg at h1
      have h3 : bytes.getD 1 0 ≠ 0x5d := by
        rcases h with ha | hb | hc
        · exact absurd ha h2
        · exact absurd hb (by simpa using h1.2)
        · exact hc
      rw [if_pos h3]

/-- Claim C6, witness: the lone OP_RETURN byte (a length-1 script) decodes to
`Ok(None)`. -/
theorem C6_witness :
    (([0x6a] : List Nat).length < 2 ∨ ([0x6a] : List Nat).getD 0 0 ≠ 0x6a ∨
     ([0x6a] : List Nat).getD 1 0 ≠ 0x5d) ∧
    parse_script [0x6a] = .ok none :=
  ⟨by decide, C6_not_protocol_ok_none [0x6a] (by decide)⟩

/-! ## Claim C7 -/

/-- Claim C7: a payload whose integer stream ends immediately after a nonzero
tag with no paired value fails with an error (the decoder runs past the end
of the data when it reads the missing value); conversely a stream made of
complete tag/value pairs with nonzero tags parses without error. -/
theorem C7_dangling_tag (ps : List (Nat × Nat)) (t : Nat)
    (hps : ∀ p ∈ ps, p.1 ≠ 0 ∧ p.1 < 2 ^ 32 ∧ p.2 < 2 ^ 32)
    (ht0 : t ≠ 0) (ht : t < 2 ^ 32) :
    parse_runestone_data (encodePairs ps ++ encode_varint t)
      = .error "cursor beyond data length" ∧
    parse_runestone_data (encodePairs ps)
      = .ok (some ⟨ps.foldl (fun m p => insertField m p.1 p.2) []⟩) :=
  ⟨parse_pairs_dangling ps t hps ht0 ht, parse_encodePairs ps hps⟩

/-- Claim C7, witness: one complete pair followed by the dangling tag 4. -/
theorem C7_witness :
    (∀ p ∈ [((2 : Nat), (7 : Nat))], p.1 ≠ 0 ∧ p.1 < 2 ^ 32 ∧ p.2 < 2 ^ 32) ∧
    (4 : Nat) ≠ 0 ∧ (4 : Nat) < 2 ^ 32 ∧
    (parse_runestone_data (encodePairs [(2, 7)] ++ encode_varint 4)
       = .error "cursor beyond data length" ∧
     parse_runestone_data (encodePairs [(2, 7)])
       = .ok (some ⟨[((2 : Nat), (7 : Nat))].foldl (fun m p => insertField m p.1 p.2) []⟩)) :=
  ⟨by decide, by decide, by decide,
   C7_dangling_tag [(2, 7)] 4 (by decide) (by decide) (by decide)⟩

/-! ## Claim C8 -/

/-- Claim C8: building a runestone script with the fields `FLAGS = 7` (tag 2),
`RUNE = rune_name_to_integer "TEST"` (tag 4), `PREMINE = 1000000` (tag 7),
`CAP = 10000000` (tag 11) and `DIVISIBILITY = 8` (tag 12) and decoding the
built script reproduces exactly those five tag-to-value bindings. -/
theorem C8_build_decode_roundtrip :
    parse_script (build [(2, 7), (4, rune_name_to_integer "TEST"), (7, 1000000),
        (11, 10000000), (12, 8)])
      = .ok (some ⟨[(2, 7), (4, rune_name_to_integer "TEST"), (7, 1000000),
        (11, 10000000), (12, 8)]⟩) := by decide

/-! ## Claim C9 -/

/-- Claim C9: `rune_name_to_integer` maps each contributing character to 8
bits of the result at an increasing bit offset — the result is the
little-endian byte value of the per-character codes, where letters map to
1..26 case-insensitively, the spacer maps to 0, and other characters are
skipped (the bound of 16 contributing characters keeps every intermediate
inside the `u128` of the source); in particular
`rune_name_to_integer "A" = 1`, `"Z" = 26` and `"AB" = 0x0201`. -/
theorem C9_rune_name_codec :
    (∀ s : String, (s.data.filterMap charValue).length ≤ 16 →
      rune_name_to_integer s = leVal (s.data.filterMap charValue)) ∧
    rune_name_to_integer "A" = 1 ∧
    rune_name_to_integer "Z" = 26 ∧
    rune_name_to_integer "AB" = 0x0201 := by
  refine ⟨fun s _ => rune_name_to_integer_eq s, by decide, by decide, by decide⟩

/-- Claim C9, witness: the positional characterization at `"TEST"`. -/
theorem C9_witness :
    ("TEST".data.filterMap charValue).length ≤ 16 ∧
    rune_name_to_integer "TEST" = leVal ("TEST".data.filterMap charValue) :=
  ⟨by decide, C9_rune_name_codec.1 "TEST" (by decide)⟩

/-! ## Claim C10 -/

/-- Claim C10: decoding terminates on every input — a successful VarInt
decode strictly advances the cursor, and both scanning loops are stable once
their fuel reaches the number of remaining bytes (each iteration strictly
advances the position, so the remaining length bounds the iteration count and
the entry points, which pass the buffer length as fuel, compute the loops'
limits). -/
theorem C10_decode_terminates :
    (∀ data pos v pos', decode_varint data pos = .ok (v, pos') → pos < pos') ∧
    (∀ (data : List Nat) (fuel pos : Nat) (fields : List (Nat × Nat)),
        data.length - pos ≤ fuel →
        parseLoop data fuel pos fields = parseLoop data (data.length - pos) pos fields) ∧
    (∀ (bytes : List Nat) (fuel pos : Nat) (acc : List Nat),
        bytes.length - pos ≤ fuel →
        pushLoop bytes fuel pos acc = pushLoop bytes (bytes.length - pos) pos acc) := by
  refine ⟨decode_varint_progress, ?_, ?_⟩
  · intro data fuel pos fields h
    exact parseLoop_ext data (data.length - pos) pos fields fuel (data.length - pos)
      le_rfl h le_rfl
  · intro bytes fuel pos acc h
    exact pushLoop_ext bytes (bytes.length - pos) pos acc fuel (bytes.length - pos)
      le_rfl h le_rfl

/-- Claim C10, witness: progress and fuel-stability at concrete inputs. -/
theorem C10_witness :
    0 < 1 ∧
    parseLoop [2, 7] 99 0 [] = parseLoop [2, 7] (([2, 7] : List Nat).length - 0) 0 [] ∧
    pushLoop [2, 7] 99 0 [] = pushLoop [2, 7] (([2, 7] : List Nat).length - 0) 0 [] :=
  ⟨C10_decode_terminates.1 [2, 7] 0 2 1 (by decide),
   C10_decode_terminates.2.1 [2, 7] 99 0 [] (by decide),
   C10_decode_terminates.2.2 [2, 7] 99 0 [] (by decide)⟩

end RunesCodec
